import Mathlib

/-!
Shallow embedding of `devices/executorDevices.py` (cockpit):
the generic action compiler `ExecutorDevice.executeTable` and the legacy
DSP profile compiler `LegacyDSP.executeTable`.

Modelling conventions:
* timestamps (milliseconds) and analog values are rationals (`ℚ`);
* digital bitmasks are naturals (`ℕ`); clock ticks are integers (`ℤ`);
* Python exceptions are modelled with `Except PyErr`; a `.ok` result of an
  `executeTable` function means the code reached the point where it starts
  issuing commands to the remote connection, and carries exactly the data
  handed to the connection;
* the `uint32` fields of the numpy record descriptor are reduced `% 2 ^ 32`;
* Python 2 peculiarities that the source relies on are modelled explicitly:
  `None` comparing below every number (`pyMax`, `pyGeOpt`), `int()`
  truncation (`pyInt`), and the always-empty slice `y[-1:][1:]`
  (`lastSliceTail`).
-/

namespace Executor

/-- One row of an action table, `(t, handler, (darg, aargs))`:
timestamp in ms, owner handler id, digital bitmask, 4 analog values. -/
structure ActionRow where
  t : ℚ
  handler : ℕ
  darg : ℕ
  aargs : List ℚ
deriving DecidableEq

/-- Python exceptions that the modelled code can raise. -/
inductive PyErr
  | indexError
  | typeError
deriving DecidableEq

/-- Python slice `l[start:stop]` for natural indices. -/
def pySlice (l : List α) (start stop : ℕ) : List α :=
  (l.drop start).take (stop - start)

/-- Python `int(q)`: truncation toward zero. -/
def pyInt (q : ℚ) : ℤ := if q < 0 then -⌊-q⌋ else ⌊q⌋

/-- `self.tickrate = 10`: number of ticks per millisecond. -/
def tickrate : ℚ := 10

/-- `ticks = int(float(t) * self.tickrate + 0.5)` (line 203). -/
def tickOf (t : ℚ) : ℤ := pyInt (t * tickrate + 1 / 2)

/-- One generic-path action: `(float(row[0])-t0,) + tuple(row[2:])`, i.e.
the rebased time together with the digital and analog arguments (the
owner-handler field of the row is dropped). -/
def rebaseRow (t0 : ℚ) (r : ActionRow) : ℚ × ℕ × List ℚ :=
  (r.t - t0, r.darg, r.aargs)

/-- Repeat padding, lines 140-144 (and the identical lines 235-239): if a
repeat duration is given, `actions[-1]` is inspected (an `IndexError` on an
empty list) and, when its rebased time is strictly below `repDuration`, one
extra action at time `t0 + repDuration` with the last action's values is
appended. -/
def repActions (t0 : ℚ) (acts : List (ℚ × ℕ × List ℚ)) :
    Option ℚ → Except PyErr (List (ℚ × ℕ × List ℚ))
  | none => .ok acts
  | some rd =>
    match acts.getLast? with
    | none => .error .indexError
    | some last => if last.1 < rd then .ok (acts ++ [(t0 + rd, last.2)]) else .ok acts

/-- `ExecutorDevice.executeTable` (lines 134-150): the list of actions that
is handed to `connection.PrepareActions`, or the exception raised before
reaching the connection. -/
def genericActions (table : List ActionRow) (start stop : ℕ) (rd : Option ℚ) :
    Except PyErr (List (ℚ × ℕ × List ℚ)) :=
  match table[start]? with
  | none => .error .indexError
  | some r0 => repActions r0.t ((pySlice table start stop).map (rebaseRow r0.t)) rd

/-! ### Legacy DSP profile compiler (`LegacyDSP.executeTable`, lines 182-269) -/

/-- One analog channel of the profile: a list of `(ticks, offset)` events. -/
abbrev Chan := List (ℤ × ℚ)

/-- Carried device state: `self._lastAnalogs` and `self._lastDigital`. -/
structure LegacyState where
  lastAnalogs : List ℚ
  lastDigital : ℕ
deriving DecidableEq

/-- Per-channel analog handling (lines 216-221): the `(ticks, offset)` pair is
appended only if the channel is empty and the offset differs from zero, or the
channel is non-empty and the offset differs from the last appended value. The
boolean records whether an append happened (it drives `tLastA`). -/
def chanStep (ticks : ℤ) (offset : ℚ) (a : Chan) : Chan × Bool :=
  if (a = [] ∧ offset ≠ 0) ∨ (a ≠ [] ∧ (a.getLast?).map Prod.snd ≠ some offset) then
    (a ++ [(ticks, offset)], true)
  else (a, false)

/-- The condition under which line 209 prints "TIMING RESOLUTION EXCEEDED":
the current tick equals the last digital entry's tick while the digital value
differs.  `none` stands for an empty `digitals` list (first row: no check). -/
def flagCond : Option (ℤ × ℕ) → ActionRow → Bool
  | none, _ => false
  | some p, r => decide (tickOf r.t = p.1 ∧ r.darg ≠ p.2)

/-- Accumulator of the row loop (lines 200-221): the digital events, the four
analog channels, the time of the last analog event (`tLastA`), and for each
processed row whether the timing-resolution warning was printed. -/
structure LoopAcc where
  digitals : List (ℤ × ℕ)
  analogs : List Chan
  tLastA : Option ℚ
  flags : List Bool
deriving DecidableEq

/-- Body of `for (t, handler, (darg, aargs)) in table[startIndex:stopIndex]`
(lines 200-221): quantize the timestamp, append the digital event
unconditionally, and run the change-only analog update on every channel. -/
def rowStep (lastAnalogs : List ℚ) (acc : LoopAcc) (r : ActionRow) : LoopAcc :=
  let ticks := tickOf r.t
  let offsets := List.zipWith (fun base new => base - new) lastAnalogs r.aargs
  let pairs := List.zipWith (chanStep ticks) offsets acc.analogs
  { digitals := acc.digitals ++ [(ticks, r.darg)]
    analogs := pairs.map Prod.fst
    tLastA := if pairs.any Prod.snd then some r.t else acc.tLastA
    flags := acc.flags ++ [flagCond acc.digitals.getLast? r] }

/-- Initial accumulator: `analogs = [[], [], [], []]`, `digitals = []`,
`tLastA = None` (lines 194-199). -/
def legacyInit : LoopAcc := ⟨[], [[], [], [], []], none, []⟩

/-- Python 2 comparison `tLastA >= digitals[-1][0]` where `tLastA` may be
`None`: `None` compares below every number, so the comparison is false. -/
def pyGeOpt : Option ℚ → ℤ → Bool
  | none, _ => false
  | some t, k => decide ((k : ℚ) ≤ t)

/-- Everything the loop plus the firmware-workaround block produces:
`t0` and the (possibly extended) digital list alongside the loop results. -/
structure LegacyProfile where
  t0 : ℚ
  digitals : List (ℤ × ℕ)
  analogs : List Chan
  tLastA : Option ℚ
  flags : List Bool
deriving DecidableEq

/-- Lines 192-230: run the row loop over `table[startIndex:stopIndex]` and
apply the DSP-bug workaround: if exactly one digital event was built, or
`tLastA >= digitals[-1][0]`, duplicate the last digital event one tick later.
`digitals[-1]` on an empty list raises `IndexError`. -/
def legacyCompileProfile (st : LegacyState) (table : List ActionRow)
    (start stop : ℕ) : Except PyErr LegacyProfile :=
  match table[start]? with
  | none => .error .indexError
  | some r0 =>
    let acc := (pySlice table start stop).foldl (rowStep st.lastAnalogs) legacyInit
    match acc.digitals.getLast? with
    | none => .error .indexError
    | some last =>
      let digitals :=
        if acc.digitals.length = 1 ∨ pyGeOpt acc.tLastA last.1 then
          acc.digitals ++ [(last.1 + 1, last.2)]
        else acc.digitals
      .ok ⟨r0.t, digitals, acc.analogs, acc.tLastA, acc.flags⟩

/-- Python 2 `max` lifted to `Option ℤ`: `None` is below every integer. -/
def pyMax : Option ℤ → Option ℤ → Option ℤ
  | none, b => b
  | some a, none => some a
  | some a, some b => some (max a b)

/-- The tick column `(zip(*a) or [[None]])[0]` of one analog channel: the
channel's ticks, or the placeholder `[None]` if the channel is empty. -/
def chanTicks (a : Chan) : List (Option ℤ) :=
  if a = [] then [none] else a.map (fun p => some p.1)

/-- Line 250: `reduce(max, chain(zip(*digitals)[0], *[...analog ticks...]))`.
`reduce` over an empty sequence raises (`TypeError`), and a `None` result
could not be stored in the `u4` descriptor field. -/
def maxticksOf (digitals : List (ℤ × ℕ)) (analogs : List Chan) : Except PyErr ℤ :=
  match digitals.map (fun p => some p.1) ++ (analogs.map chanTicks).flatten with
  | [] => .error .typeError
  | h :: t =>
    match t.foldl pyMax h with
    | none => .error .typeError
    | some m => .ok m

/-- Modulus of the `u4` descriptor fields. -/
def U32 : ℕ := 2 ^ 32

/-- The numpy record `description` (lines 244-256):
`(count, clock, InitDio, nDigital, nAnalog)` with the `u4` fields wrapped. -/
structure Descriptor where
  count : ℕ
  clock : ℚ
  initDio : ℕ
  nDigital : ℕ
  nAnalog : List ℕ
deriving DecidableEq

/-- Everything a successful `LegacyDSP.executeTable` hands to the connection
(`profileSet(description.tostring(), digitals, *analogs)`), plus the dead
`actions` list of lines 233-239 and the updated carried state of
lines 258-261. -/
structure LegacyResult where
  descriptor : Descriptor
  digitals : List (ℤ × ℕ)
  analogs : List Chan
  actions : List (ℚ × ℕ × List ℚ)
  lastDigital : ℕ
  lastAnalogs : List ℚ
deriving DecidableEq

/-- The slice `y[-1:][1:]` from line 261: `y[-1:]` has at most one element, so
dropping its first element always yields the empty list. -/
def lastSliceTail (y : Chan) : List (ℤ × ℚ) := (y.drop (y.length - 1)).drop 1

/-- Line 261, `x - (y[-1:][1:] or 0)`: since `y[-1:][1:]` is always `[]`
(falsy), the `or` falls through to `0` and the expression is `x - 0`.  The
second branch is unreachable for every `y` (Python would raise a `TypeError`
when subtracting a non-empty list). -/
def newBaseline (x : ℚ) (y : Chan) : ℚ :=
  match lastSliceTail y with
  | [] => x - 0
  | _ :: _ => x

/-- `LegacyDSP.executeTable` (lines 182-269): compile the profile, run the
(dead) repeat-padding computation, build the descriptor, and update the
carried state.  A `.ok` result carries exactly what is handed to the
connection plus the new state. -/
def legacyExecuteTable (st : LegacyState) (table : List ActionRow)
    (start stop : ℕ) (rd : Option ℚ) : Except PyErr LegacyResult :=
  match legacyCompileProfile st table start stop with
  | .error e => .error e
  | .ok prof =>
    match repActions prof.t0 ((pySlice table start stop).map (rebaseRow prof.t0)) rd with
    | .error e => .error e
    | .ok actions =>
      match maxticksOf prof.digitals prof.analogs with
      | .error e => .error e
      | .ok m =>
        match prof.digitals.getLast? with
        | none => .error .indexError
        | some lastDig =>
          .ok { descriptor :=
                  { count := (m % (U32 : ℤ)).toNat
                    clock := 1000 / tickrate
                    initDio := st.lastDigital % U32
                    nDigital := prof.digitals.length % U32
                    nAnalog := prof.analogs.map (fun a => a.length % U32) }
                digitals := prof.digitals
                analogs := prof.analogs
                actions := actions
                lastDigital := lastDig.2
                lastAnalogs := List.zipWith newBaseline st.lastAnalogs prof.analogs }

/-- All tick indices occurring in a profile: the digital ticks followed by
each analog channel's ticks. -/
def allTicks (ds : List (ℤ × ℕ)) (as : List Chan) : List ℤ :=
  ds.map Prod.fst ++ (as.map (fun a => a.map Prod.fst)).flatten

/-- Reference recursion for the timing-resolution warnings: given the last
digital entry built so far (`none` before the first row), the warning flag of
each row in turn. -/
def flagsSpec : Option (ℤ × ℕ) → List ActionRow → List Bool
  | _, [] => []
  | p, r :: rs => flagCond p r :: flagsSpec (some (tickOf r.t, r.darg)) rs

/-- Folding the change-only analog update over one channel's per-row
`(ticks, offset)` stream, starting from an already-built channel. -/
def chanFold (ch : Chan) (ps : List (ℤ × ℚ)) : Chan :=
  ps.foldl (fun a p => (chanStep p.1 p.2 a).1) ch

/-- One channel's event list built from an initially empty channel. -/
def chanRun (ps : List (ℤ × ℚ)) : Chan := chanFold [] ps

/-! ### Claim theorems -/

/-! #### Loop characterization lemmas -/

lemma foldl_rowStep_digitals (bs : List ℚ) (rows : List ActionRow) :
    ∀ acc : LoopAcc,
      (rows.foldl (rowStep bs) acc).digitals
        = acc.digitals ++ rows.map (fun r => (tickOf r.t, r.darg)) := by
  induction rows with
  | nil => intro acc; simp
  | cons r rs ih =>
    intro acc
    simp only [List.foldl_cons, List.map_cons, ih, rowStep]
    simp

lemma foldl_rowStep_flags (bs : List ℚ) (rows : List ActionRow) :
    ∀ acc : LoopAcc,
      (rows.foldl (rowStep bs) acc).flags
        = acc.flags ++ flagsSpec acc.digitals.getLast? rows := by
  induction rows with
  | nil => intro acc; simp [flagsSpec]
  | cons r rs ih =>
    intro acc
    simp only [List.foldl_cons, ih, rowStep]
    simp [flagsSpec, List.getLast?_concat]

lemma flagsSpec_length (p : Option (ℤ × ℕ)) (rows : List ActionRow) :
    (flagsSpec p rows).length = rows.length := by
  induction rows generalizing p with
  | nil => rfl
  | cons r rs ih => simp [flagsSpec, ih]

lemma flagsSpec_getElem_zero (p : Option (ℤ × ℕ)) (rows : List ActionRow)
    (r : ActionRow) (h : rows[0]? = some r) :
    (flagsSpec p rows)[0]? = some (flagCond p r) := by
  cases rows with
  | nil => simp at h
  | cons x xs => simp_all [flagsSpec]

lemma flagsSpec_getElem_succ (rows : List ActionRow) (p : Option (ℤ × ℕ))
    (i : ℕ) (r r' : ActionRow)
    (h1 : rows[i]? = some r) (h2 : rows[i + 1]? = some r') :
    (flagsSpec p rows)[i + 1]? = some (flagCond (some (tickOf r.t, r.darg)) r') := by
  induction rows generalizing p i with
  | nil => simp at h1
  | cons x xs ih =>
    cases i with
    | zero =>
      simp only [List.getElem?_cons_zero, Option.some.injEq] at h1
      simp only [List.getElem?_cons_succ] at h2
      subst h1
      simpa [flagsSpec] using flagsSpec_getElem_zero _ _ _ h2
    | succ j =>
      simp only [List.getElem?_cons_succ] at h1 h2
      simpa [flagsSpec] using ih _ _ h1 h2

/-- C5: in the legacy loop, one digital event `(tickIndex, digitalArg)` is
appended per row, unconditionally and in order; the flag list holds one entry
per row, the first row is never flagged, and row `i+1` is flagged exactly
when its tick equals row `i`'s tick while its digital value differs. -/
theorem c5_digitalSampledAndFlagged (bs : List ℚ) (rows : List ActionRow) :
    (rows.foldl (rowStep bs) legacyInit).digitals
        = rows.map (fun r => (tickOf r.t, r.darg)) ∧
    (rows.foldl (rowStep bs) legacyInit).flags.length = rows.length ∧
    (∀ r, rows[0]? = some r →
        (rows.foldl (rowStep bs) legacyInit).flags[0]? = some false) ∧
    (∀ i r r', rows[i]? = some r → rows[i + 1]? = some r' →
        ((rows.foldl (rowStep bs) legacyInit).flags[i + 1]? = some true ↔
          (tickOf r'.t = tickOf r.t ∧ r'.darg ≠ r.darg))) := by
  have hd : (rows.foldl (rowStep bs) legacyInit).digitals
      = rows.map (fun r => (tickOf r.t, r.darg)) := by
    simp [foldl_rowStep_digitals, legacyInit]
  have hf : (rows.foldl (rowStep bs) legacyInit).flags = flagsSpec none rows := by
    simp [foldl_rowStep_flags, legacyInit]
  refine ⟨hd, ?_, ?_, ?_⟩
  · rw [hf, flagsSpec_length]
  · intro r h
    rw [hf, flagsSpec_getElem_zero _ _ _ h]
    rfl
  · intro i r r' h1 h2
    rw [hf, flagsSpec_getElem_succ _ _ _ _ _ h1 h2]
    simp [flagCond]

/-- C5 witness: two rows 0.01 ms apart both quantize to tick 0 with different
digital values, and the second row is flagged. -/
theorem c5_digitalSampledAndFlagged_witness :
    (([⟨0, 0, 0, [0, 0, 0, 0]⟩, ⟨1 / 100, 0, 1, [0, 0, 0, 0]⟩].foldl
        (rowStep [0, 0, 0, 0]) legacyInit).flags)[0 + 1]? = some true :=
  ((c5_digitalSampledAndFlagged [0, 0, 0, 0]
      [⟨0, 0, 0, [0, 0, 0, 0]⟩, ⟨1 / 100, 0, 1, [0, 0, 0, 0]⟩]).2.2.2 0 _ _ rfl rfl).mpr
    (by constructor
        · norm_num [tickOf, pyInt, tickrate]
        · norm_num)

/-- C6: legacy tick quantization: for a non-negative timestamp the computed
tick index is the round-half-up `⌊t * tickrate + 1/2⌋`, and quantization is
monotone on non-negative, non-decreasing timestamps. -/
theorem c6_tickQuantization :
    (∀ t : ℚ, 0 ≤ t → tickOf t = ⌊t * tickrate + 1 / 2⌋) ∧
    (∀ t u : ℚ, 0 ≤ t → t ≤ u → tickOf t ≤ tickOf u) := by
  have hpos : ∀ t : ℚ, 0 ≤ t → ¬(t * tickrate + 1 / 2 < 0) := by
    intro t ht
    rw [not_lt, tickrate]
    nlinarith
  constructor
  · intro t ht
    simp only [tickOf, pyInt]
    rw [if_neg (hpos t ht)]
  · intro t u ht htu
    have hu : (0 : ℚ) ≤ u := le_trans ht htu
    simp only [tickOf, pyInt]
    rw [if_neg (hpos t ht), if_neg (hpos u hu)]
    have h10 : (0 : ℚ) ≤ tickrate := by norm_num [tickrate]
    exact Int.floor_le_floor (by nlinarith)

/-- C6 witness: quantization of 1.01 ms follows the floor formula and is
below the quantization of 2 ms. -/
theorem c6_tickQuantization_witness :
    tickOf (101 / 100) = ⌊(101 / 100 : ℚ) * tickrate + 1 / 2⌋
      ∧ tickOf (101 / 100) ≤ tickOf 2 :=
  ⟨c6_tickQuantization.1 (101 / 100) (by norm_num),
   c6_tickQuantization.2 (101 / 100) 2 (by norm_num) (by norm_num)⟩

/-- C1: the trailing-analog workaround does not fire when the last analog
event shares the last digital event's tick.  With baselines `[0,0,0,0]` and
rows at `t = 0` and `t = 5` ms (tick 50) where the second row changes analog
channel 0, the compiled profile's last analog event is at tick 50, equal to
the last digital event's tick 50, yet no duplicate digital event at tick 51
is appended: the code compares the analog timestamp in milliseconds
(`tLastA = 5`) against the digital tick count (50). -/
theorem c1_trailingAnalogWorkaroundMissed :
    (legacyExecuteTable ⟨[0, 0, 0, 0], 0⟩
        [⟨0, 0, 1, [0, 0, 0, 0]⟩, ⟨5, 0, 1, [1, 0, 0, 0]⟩] 0 2 none).map
        (fun r => (r.digitals, r.analogs))
      = .ok ([(0, 1), (50, 1)], [[(50, -1)], [], [], []]) := by
  norm_num [legacyExecuteTable, legacyCompileProfile, pySlice, rowStep, legacyInit,
    chanStep, flagCond, tickOf, pyInt, tickrate, pyGeOpt, repActions, rebaseRow,
    maxticksOf, chanTicks, pyMax, newBaseline, lastSliceTail, U32, Except.map]

/-- C2: the repeat-padding row of the generic path is appended at
`t0 + repDuration`, not at relative time `repDuration`.  With rows at
`t = 5` and `t = 8` ms (so `t0 = 5`, rebased times 0 and 3) and
`repDuration = 10`, the appended row has relative time 15, not 10. -/
theorem c2_padRowAtAbsoluteTime :
    genericActions [⟨5, 0, 0, [0, 0, 0, 0]⟩, ⟨8, 0, 1, [0, 0, 0, 0]⟩] 0 2 (some 10)
      = .ok [(0, 0, [0, 0, 0, 0]), (3, 1, [0, 0, 0, 0]), (15, 1, [0, 0, 0, 0])] := by
  norm_num [genericActions, pySlice, repActions, rebaseRow]

/-- C3: the carried analog baselines are never updated.  With baselines
`[5,0,0,0]` and two rows whose analog args are `[2,0,0,0]`, channel 0 builds
the single event `(0, 3)` (offset `5 - 2 = 3`), so the claim requires the new
baseline `5 - 3 = 2` on channel 0; the code's `y[-1:][1:] or 0` is always
`0`, so the baselines stay `[5,0,0,0]`. -/
theorem c3_baselinesNotUpdated :
    (legacyExecuteTable ⟨[5, 0, 0, 0], 7⟩
        [⟨0, 0, 1, [2, 0, 0, 0]⟩, ⟨1, 0, 1, [2, 0, 0, 0]⟩] 0 2 none).map
        (fun r => (r.analogs, r.lastAnalogs, r.lastDigital))
      = .ok ([[(0, 3)], [], [], []], [5, 0, 0, 0], 1) := by
  norm_num [legacyExecuteTable, legacyCompileProfile, pySlice, rowStep, legacyInit,
    chanStep, flagCond, tickOf, pyInt, tickrate, pyGeOpt, repActions, rebaseRow,
    maxticksOf, chanTicks, pyMax, newBaseline, lastSliceTail, U32, Except.map]

lemma chanFold_cons (a : Chan) (p : ℤ × ℚ) (ps : List (ℤ × ℚ)) :
    chanFold a (p :: ps) = chanFold ((chanStep p.1 p.2 a).1) ps := rfl

lemma rowStep_analogs_length (bs : List ℚ) (acc : LoopAcc) (r : ActionRow)
    (hbs : bs.length = 4) (ha : r.aargs.length = 4)
    (hacc : acc.analogs.length = 4) :
    (rowStep bs acc r).analogs.length = 4 := by
  simp [rowStep, List.length_zipWith, hbs, ha, hacc]

lemma rowStep_analogs_getElem (bs : List ℚ) (acc : LoopAcc) (r : ActionRow)
    (c : ℕ) (ch : Chan) (hc : c < 4) (hbs : bs.length = 4)
    (ha : r.aargs.length = 4) (hch : acc.analogs[c]? = some ch) :
    (rowStep bs acc r).analogs[c]?
      = some (chanStep (tickOf r.t) (bs.getD c 0 - r.aargs.getD c 0) ch).1 := by
  have hbs' : c < bs.length := by omega
  have ha' : c < r.aargs.length := by omega
  simp only [rowStep, List.getElem?_map, List.getElem?_zipWith', hch,
    List.getElem?_eq_getElem hbs', List.getElem?_eq_getElem ha',
    Option.map_some, Option.some_bind]
  simp [List.getElem?_eq_getElem hbs', List.getElem?_eq_getElem ha']

lemma foldl_rowStep_analogs (bs : List ℚ) (c : ℕ) (hc : c < 4)
    (hbs : bs.length = 4) :
    ∀ (rows : List ActionRow) (acc : LoopAcc) (ch : Chan),
      acc.analogs.length = 4 → acc.analogs[c]? = some ch →
      (∀ r ∈ rows, r.aargs.length = 4) →
      ((rows.foldl (rowStep bs) acc).analogs)[c]?
        = some (chanFold ch
            (rows.map (fun r => (tickOf r.t, bs.getD c 0 - r.aargs.getD c 0)))) := by
  intro rows
  induction rows with
  | nil => intro acc ch _ hch _; simpa [chanFold] using hch
  | cons r rs ih =>
    intro acc ch hlen hch ha
    have ha_r : r.aargs.length = 4 := ha r (by simp)
    simp only [List.foldl_cons, List.map_cons, chanFold_cons]
    exact ih (rowStep bs acc r) _
      (rowStep_analogs_length bs acc r hbs ha_r hlen)
      (rowStep_analogs_getElem bs acc r c ch hc hbs ha_r hch)
      (fun q hq => ha q (List.mem_cons_of_mem _ hq))

lemma legacyInit_analogs_getElem (c : ℕ) (hc : c < 4) :
    legacyInit.analogs[c]? = some [] := by
  interval_cases c <;> rfl

lemma chanRun_append_singleton (ps : List (ℤ × ℚ)) (tk : ℤ) (off : ℚ) :
    chanRun (ps ++ [(tk, off)])
      = if (chanRun ps = [] ∧ off ≠ 0) ∨
           (chanRun ps ≠ [] ∧ ((chanRun ps).getLast?).map Prod.snd ≠ some off) then
          chanRun ps ++ [(tk, off)]
        else chanRun ps := by
  simp only [chanRun, chanFold, List.foldl_append, List.foldl_cons,
    List.foldl_nil, chanStep]
  split <;> rfl

lemma chanFold_stable (o : ℚ) (ps : List (ℤ × ℚ)) :
    ∀ a : Chan, (∀ p ∈ ps, p.2 = o) → (a.getLast?).map Prod.snd = some o →
      chanFold a ps = a := by
  induction ps with
  | nil => intro a _ _; rfl
  | cons p ps ih =>
    intro a hps hlast
    have hp : p.2 = o := hps p (by simp)
    have hne : a ≠ [] := by
      intro h
      rw [h] at hlast
      simp at hlast
    have hC : ¬((a = [] ∧ p.2 ≠ 0) ∨
        (a ≠ [] ∧ (a.getLast?).map Prod.snd ≠ some p.2)) := by
      rintro (⟨h1, _⟩ | ⟨_, h2⟩)
      · exact hne h1
      · exact h2 (by rw [hlast, hp])
    have hstep : chanStep p.1 p.2 a = (a, false) := by
      simp only [chanStep]
      rw [if_neg hC]
    rw [chanFold_cons, hstep]
    exact ih a (fun q hq => hps q (List.mem_cons_of_mem _ hq)) hlast

lemma chanFold_nil_of_zero (ps : List (ℤ × ℚ)) (h : ∀ p ∈ ps, p.2 = 0) :
    chanFold [] ps = [] := by
  induction ps with
  | nil => rfl
  | cons p ps ih =>
    have hp : p.2 = 0 := h p (by simp)
    have hstep : chanStep p.1 p.2 [] = ([], false) := by
      simp [chanStep, hp]
    rw [chanFold_cons, hstep]
    exact ih (fun q hq => h q (List.mem_cons_of_mem _ hq))

lemma chanRun_const_length (o : ℚ) (ps : List (ℤ × ℚ))
    (h : ∀ p ∈ ps, p.2 = o) : (chanRun ps).length ≤ 1 := by
  cases ps with
  | nil => simp [chanRun, chanFold]
  | cons p ps =>
    have hp : p.2 = o := h p (by simp)
    have hps : ∀ q ∈ ps, q.2 = o := fun q hq => h q (List.mem_cons_of_mem _ hq)
    by_cases ho : o = 0
    · have hstep : chanStep p.1 p.2 [] = ([], false) := by
        simp [chanStep, hp, ho]
      have hrun : chanRun (p :: ps) = [] := by
        rw [chanRun, chanFold_cons, hstep]
        exact chanFold_nil_of_zero ps (fun q hq => by rw [hps q hq, ho])
      simp [hrun]
    · have hstep : chanStep p.1 p.2 [] = ([(p.1, p.2)], true) := by
        have hpo : p.2 ≠ 0 := by rw [hp]; exact ho
        simp [chanStep, hpo]
      have hrun : chanRun (p :: ps) = [(p.1, p.2)] := by
        rw [chanRun, chanFold_cons, hstep]
        exact chanFold_stable o ps [(p.1, p.2)] hps (by simp [hp])
      simp [hrun]

/-- C4: each analog channel of the legacy loop is exactly the change-only
stream of the per-row offsets `baseline - analogArg`: the channel is obtained
by folding `chanStep` over the row offsets, `chanStep` appends an offset iff
it differs from the previously appended value (or from zero when nothing has
been appended yet), and a channel whose analog argument is constant across
all rows ends with at most one entry. -/
theorem c4_analogChangeOnly (bs : List ℚ) (rows : List ActionRow) (c : ℕ)
    (v : ℚ) (hc : c < 4) (hbs : bs.length = 4)
    (ha : ∀ r ∈ rows, r.aargs.length = 4) :
    ∃ ch, ((rows.foldl (rowStep bs) legacyInit).analogs)[c]? = some ch ∧
      ch = chanRun (rows.map (fun r => (tickOf r.t, bs.getD c 0 - r.aargs.getD c 0))) ∧
      (∀ (ps : List (ℤ × ℚ)) (tk : ℤ) (off : ℚ),
        chanRun (ps ++ [(tk, off)]) =
          if (chanRun ps = [] ∧ off ≠ 0) ∨
             (chanRun ps ≠ [] ∧ ((chanRun ps).getLast?).map Prod.snd ≠ some off) then
            chanRun ps ++ [(tk, off)]
          else chanRun ps) ∧
      ((∀ r ∈ rows, r.aargs.getD c 0 = v) → ch.length ≤ 1) := by
  have hmain := foldl_rowStep_analogs bs c hc hbs rows legacyInit [] rfl
    (legacyInit_analogs_getElem c hc) ha
  refine ⟨_, hmain, rfl, chanRun_append_singleton, ?_⟩
  intro hv
  apply chanRun_const_length (bs.getD c 0 - v)
  intro p hp
  obtain ⟨r, hr, hpr⟩ := List.mem_map.mp hp
  rw [← hpr]
  show bs.getD c 0 - r.aargs.getD c 0 = bs.getD c 0 - v
  rw [hv r hr]

/-- C4 witness: two rows whose channel-0 analog argument is constantly 9 over
baseline 1 produce a channel-0 event list of length at most 1. -/
theorem c4_analogChangeOnly_witness :
    ∃ ch, (([⟨0, 0, 0, [9, 0, 0, 0]⟩, ⟨1, 0, 0, [9, 1, 0, 0]⟩].foldl
        (rowStep [1, 2, 3, 4]) legacyInit).analogs)[0]? = some ch ∧
      ch.length ≤ 1 := by
  obtain ⟨ch, h1, _, _, h4⟩ :=
    c4_analogChangeOnly [1, 2, 3, 4]
      [⟨0, 0, 0, [9, 0, 0, 0]⟩, ⟨1, 0, 0, [9, 1, 0, 0]⟩] 0 9
      (by norm_num) (by norm_num) (by intro r hr; fin_cases hr <;> rfl)
  exact ⟨ch, h1, h4 (by intro r hr; fin_cases hr <;> rfl)⟩

/-- C9: in the generic path, for every non-empty selection (no repeat
duration) the compiled action list has one entry per selected row, each
output action's time is the row's timestamp minus the timestamp of the row at
`startIndex`, the owner-handler field is dropped (only `darg` and `aargs`
remain), and the first output row has relative time 0. -/
theorem c9_rebasedActions (table : List ActionRow) (start stop : ℕ)
    (row0 : ActionRow) (h1 : start < stop) (h2 : stop ≤ table.length)
    (h0 : table[start]? = some row0) :
    ∃ acts, genericActions table start stop none = .ok acts ∧
      acts.length = stop - start ∧
      (∀ i row, i < stop - start → table[start + i]? = some row →
        acts[i]? = some (row.t - row0.t, row.darg, row.aargs)) ∧
      (acts[0]?).map (fun a => a.1) = some 0 := by
  refine ⟨(pySlice table start stop).map (rebaseRow row0.t), ?_, ?_, ?_, ?_⟩
  · simp [genericActions, h0, repActions]
  · simp only [List.length_map, pySlice, List.length_take, List.length_drop]
    omega
  · intro i row hi hrow
    rw [List.getElem?_map, pySlice, List.getElem?_take_of_lt hi,
      List.getElem?_drop, hrow]
    rfl
  · have hi0 : 0 < stop - start := by omega
    have h00 : table[start + 0]? = some row0 := by simpa using h0
    rw [List.getElem?_map, pySlice, List.getElem?_take_of_lt hi0,
      List.getElem?_drop, h00]
    simp [rebaseRow]

/-- C9 witness: a concrete two-row table at `t = 1` and `t = 3` ms compiles
to actions whose first relative time is 0. -/
theorem c9_rebasedActions_witness :
    ∃ acts,
      genericActions [⟨1, 0, 5, [0, 0, 0, 0]⟩, ⟨3, 0, 6, [0, 0, 0, 0]⟩] 0 2 none
          = .ok acts ∧
      acts.length = 2 ∧ (acts[0]?).map (fun a => a.1) = some 0 := by
  obtain ⟨acts, ha, hlen, _, hfst⟩ :=
    c9_rebasedActions [⟨1, 0, 5, [0, 0, 0, 0]⟩, ⟨3, 0, 6, [0, 0, 0, 0]⟩] 0 2
      ⟨1, 0, 5, [0, 0, 0, 0]⟩ (by norm_num) (by norm_num) rfl
  exact ⟨acts, ha, hlen, hfst⟩

lemma legacyExecuteTable_ok_inv (st : LegacyState) (table : List ActionRow)
    (start stop : ℕ) (rd : Option ℚ) (r : LegacyResult)
    (h : legacyExecuteTable st table start stop rd = .ok r) :
    ∃ prof m lastDig,
      legacyCompileProfile st table start stop = .ok prof ∧
      maxticksOf prof.digitals prof.analogs = .ok m ∧
      prof.digitals.getLast? = some lastDig ∧
      r.descriptor = Descriptor.mk ((m % (U32 : ℤ)).toNat) (1000 / tickrate)
        (st.lastDigital % U32) (prof.digitals.length % U32)
        (prof.analogs.map (fun a => a.length % U32)) ∧
      r.digitals = prof.digitals ∧ r.analogs = prof.analogs ∧
      r.lastDigital = lastDig.2 ∧
      r.lastAnalogs = List.zipWith newBaseline st.lastAnalogs prof.analogs := by
  unfold legacyExecuteTable at h
  split at h
  · simp at h
  · rename_i prof hp
    split at h
    · simp at h
    · rename_i actions hact
      split at h
      · simp at h
      · rename_i m hm
        split at h
        · simp at h
        · rename_i lastDig hld
          injection h with h2
          subst h2
          exact ⟨prof, m, lastDig, hp, hm, hld, rfl, rfl, rfl, rfl, rfl⟩

lemma foldl_pyMax_spec (l : List (Option ℤ)) :
    ∀ (init : Option ℤ) (m : ℤ), l.foldl pyMax init = some m →
      m ∈ init.toList ++ l.filterMap id ∧
      ∀ x ∈ init.toList ++ l.filterMap id, x ≤ m := by
  induction l with
  | nil =>
    intro init m h
    simp only [List.foldl_nil] at h
    subst h
    constructor
    · simp
    · intro x hx
      simp at hx
      omega
  | cons o t ih =>
    intro init m h
    rw [List.foldl_cons] at h
    obtain ⟨hmem, hub⟩ := ih (pyMax init o) m h
    cases init with
    | none =>
      have heq : (pyMax none o).toList ++ t.filterMap id
          = (none : Option ℤ).toList ++ (o :: t).filterMap id := by
        cases o <;> simp [pyMax]
      rw [heq] at hmem hub
      exact ⟨hmem, hub⟩
    | some b =>
      cases o with
      | none =>
        have heq : (pyMax (some b) none).toList ++ t.filterMap id
            = (some b).toList ++ ((none : Option ℤ) :: t).filterMap id := by
          simp [pyMax]
        rw [heq] at hmem hub
        exact ⟨hmem, hub⟩
      | some a =>
        have heq : (pyMax (some b) (some a)).toList ++ t.filterMap id
            = max b a :: t.filterMap id := by
          simp [pyMax]
        have hgoal : (some b).toList ++ ((some a) :: t).filterMap id
            = b :: a :: t.filterMap id := by
          simp
        rw [heq] at hmem hub
        rw [hgoal]
        have hmax : max b a ≤ m := hub (max b a) (by simp)
        constructor
        · rcases List.mem_cons.mp hmem with hm | hm
          · rcases max_choice b a with hc | hc
            · rw [hm, hc]
              simp
            · rw [hm, hc]
              simp
          · exact List.mem_cons_of_mem _ (List.mem_cons_of_mem _ hm)
        · intro x hx
          rcases List.mem_cons.mp hx with hx | hx
          · rw [hx]
            exact le_trans (le_max_left b a) hmax
          · rcases List.mem_cons.mp hx with hx2 | hx2
            · rw [hx2]
              exact le_trans (le_max_right b a) hmax
            · exact hub x (List.mem_cons_of_mem _ hx2)

lemma optionToList_filterMap (x : Option ℤ) (l : List (Option ℤ)) :
    x.toList ++ l.filterMap id = (x :: l).filterMap id := by
  cases x <;> simp

lemma filterMap_id_map_some (l : List ℤ) :
    (l.map (fun k => some k)).filterMap id = l := by
  induction l <;> simp_all

lemma chanTicks_filterMap (a : Chan) :
    (chanTicks a).filterMap id = a.map Prod.fst := by
  by_cases h : a = []
  · simp [chanTicks, h]
  · have : a.map (fun p => some p.1) = (a.map Prod.fst).map (fun k => some k) := by
      rw [List.map_map]
      rfl
    rw [chanTicks, if_neg h, this, filterMap_id_map_some]

lemma seq_filterMap (ds : List (ℤ × ℕ)) (as : List Chan) :
    ((ds.map (fun p => some p.1)) ++ (as.map chanTicks).flatten).filterMap id
      = allTicks ds as := by
  rw [List.filterMap_append, allTicks]
  congr 1
  · have : ds.map (fun p => some p.1)
        = (ds.map Prod.fst).map (fun k => some k) := by
      rw [List.map_map]
      rfl
    rw [this, filterMap_id_map_some]
  · induction as with
    | nil => simp
    | cons a as ih =>
      simp only [List.map_cons, List.flatten_cons, List.filterMap_append,
        chanTicks_filterMap, ih]

lemma maxticksOf_spec (ds : List (ℤ × ℕ)) (as : List Chan) (m : ℤ)
    (h : maxticksOf ds as = .ok m) :
    m ∈ allTicks ds as ∧ ∀ k ∈ allTicks ds as, k ≤ m := by
  unfold maxticksOf at h
  split at h
  · simp at h
  · rename_i x t hseq
    split at h
    · simp at h
    · rename_i m' hfold
      injection h with h2
      subst h2
      have hspec := foldl_pyMax_spec t x m' hfold
      rw [optionToList_filterMap, ← hseq, seq_filterMap] at hspec
      exact hspec

/-- C7: for every successful legacy compile (with in-range ticks, lengths and
carried digital state), the descriptor's `count` is the maximum tick index
over all digital and analog events, `clock` is `1000 / tickrate`, `InitDio`
is the digital state carried from before this profile, and `nDigital` and
`nAnalog` are the lengths of the built digital and per-channel analog
lists. -/
theorem c7_descriptorFields (st : LegacyState) (table : List ActionRow)
    (start stop : ℕ) (rd : Option ℚ) (r : LegacyResult)
    (h : legacyExecuteTable st table start stop rd = .ok r)
    (hdio : st.lastDigital < U32)
    (hnd : r.digitals.length < U32)
    (hna : ∀ a ∈ r.analogs, a.length < U32)
    (ht : ∀ k ∈ allTicks r.digitals r.analogs, 0 ≤ k ∧ k < (U32 : ℤ)) :
    ((r.descriptor.count : ℤ) ∈ allTicks r.digitals r.analogs ∧
      ∀ k ∈ allTicks r.digitals r.analogs, k ≤ (r.descriptor.count : ℤ)) ∧
    r.descriptor.clock = 1000 / tickrate ∧
    r.descriptor.initDio = st.lastDigital ∧
    r.descriptor.nDigital = r.digitals.length ∧
    r.descriptor.nAnalog = r.analogs.map List.length := by
  obtain ⟨prof, m, lastDig, hp, hm, hld, hdesc, hdig, hana, _, _⟩ :=
    legacyExecuteTable_ok_inv st table start stop rd r h
  obtain ⟨hmem, hub⟩ := maxticksOf_spec prof.digitals prof.analogs m hm
  have ht' : ∀ k ∈ allTicks prof.digitals prof.analogs,
      0 ≤ k ∧ k < (U32 : ℤ) := by
    rw [← hdig, ← hana]
    exact ht
  have hm0 : 0 ≤ m := (ht' m hmem).1
  have hmU : m < (U32 : ℤ) := (ht' m hmem).2
  have hcast : ((r.descriptor.count : ℕ) : ℤ) = m := by
    rw [hdesc]
    show (((m % (U32 : ℤ)).toNat : ℕ) : ℤ) = m
    rw [Int.emod_eq_of_lt hm0 hmU, Int.toNat_of_nonneg hm0]
  refine ⟨⟨?_, ?_⟩, ?_, ?_, ?_, ?_⟩
  · rw [hcast, hdig, hana]
    exact hmem
  · intro k hk
    rw [hcast]
    refine hub k ?_
    rw [← hdig, ← hana]
    exact hk
  · rw [hdesc]
  · rw [hdesc]
    exact Nat.mod_eq_of_lt hdio
  · rw [hdesc, hdig]
    exact Nat.mod_eq_of_lt (hdig ▸ hnd)
  · rw [hdesc, hana]
    refine List.map_congr_left ?_
    intro a haa
    refine Nat.mod_eq_of_lt (hna a ?_)
    rw [hana]
    exact haa

/-- C7 witness: a concrete two-row compile; the descriptor's `count` (50) is
a member of the profile's tick list. -/
theorem c7_descriptorFields_witness :
    ((50 : ℕ) : ℤ) ∈ allTicks [(0, 1), (50, 2)] [[], [], [], []] := by
  have h : legacyExecuteTable ⟨[0, 0, 0, 0], 3⟩
      [⟨0, 0, 1, [0, 0, 0, 0]⟩, ⟨5, 0, 2, [0, 0, 0, 0]⟩] 0 2 none
      = .ok ⟨⟨50, 100, 3, 2, [0, 0, 0, 0]⟩, [(0, 1), (50, 2)], [[], [], [], []],
          [(0, 1, [0, 0, 0, 0]), (5, 2, [0, 0, 0, 0])], 2, [0, 0, 0, 0]⟩ := by
    norm_num [legacyExecuteTable, legacyCompileProfile, pySlice, rowStep,
      legacyInit, chanStep, flagCond, tickOf, pyInt, tickrate, pyGeOpt,
      repActions, rebaseRow, maxticksOf, chanTicks, pyMax, newBaseline,
      lastSliceTail, U32]
    decide
  exact (c7_descriptorFields _ _ 0 2 none _ h
      (by norm_num [U32])
      (by norm_num [U32])
      (by intro a ha; fin_cases ha <;> norm_num [U32])
      (by intro k hk
          simp only [allTicks, List.map_cons, List.map_nil, List.flatten,
            List.append_nil] at hk
          fin_cases hk <;> norm_num [U32])).1.1

/-- C10: the legacy profile handed to the connection (descriptor, digital
events, analog events) and the updated carried state are identical whatever
the repeat duration is: the repeat-padding computation does not feed into the
transmitted profile. -/
theorem c10_profileIndependentOfRepDuration (st : LegacyState)
    (table : List ActionRow) (start stop : ℕ) (rd₁ rd₂ : Option ℚ)
    (r₁ r₂ : LegacyResult)
    (h₁ : legacyExecuteTable st table start stop rd₁ = .ok r₁)
    (h₂ : legacyExecuteTable st table start stop rd₂ = .ok r₂) :
    r₁.descriptor = r₂.descriptor ∧ r₁.digitals = r₂.digitals ∧
    r₁.analogs = r₂.analogs ∧ r₁.lastDigital = r₂.lastDigital ∧
    r₁.lastAnalogs = r₂.lastAnalogs := by
  obtain ⟨p₁, m₁, d₁, hp₁, hm₁, hd₁, hdesc₁, hdig₁, hana₁, hld₁, hla₁⟩ :=
    legacyExecuteTable_ok_inv st table start stop rd₁ r₁ h₁
  obtain ⟨p₂, m₂, d₂, hp₂, hm₂, hd₂, hdesc₂, hdig₂, hana₂, hld₂, hla₂⟩ :=
    legacyExecuteTable_ok_inv st table start stop rd₂ r₂ h₂
  rw [hp₁] at hp₂
  injection hp₂ with hpp
  subst hpp
  rw [hm₁] at hm₂
  injection hm₂ with hmm
  subst hmm
  rw [hd₁] at hd₂
  injection hd₂ with hdd
  subst hdd
  exact ⟨by rw [hdesc₁, hdesc₂], by rw [hdig₁, hdig₂], by rw [hana₁, hana₂],
    by rw [hld₁, hld₂], by rw [hla₁, hla₂]⟩

/-- C10 witness: a one-row table compiled with no repeat duration and with
repeat duration 100 yields the same transmitted profile (the dead `actions`
lists differ). -/
theorem c10_profileIndependentOfRepDuration_witness :
    legacyExecuteTable ⟨[0, 0, 0, 0], 0⟩ [⟨0, 0, 0, [0, 0, 0, 0]⟩] 0 1 none
        = .ok ⟨⟨1, 100, 0, 2, [0, 0, 0, 0]⟩, [(0, 0), (1, 0)], [[], [], [], []],
            [(0, 0, [0, 0, 0, 0])], 0, [0, 0, 0, 0]⟩ ∧
    legacyExecuteTable ⟨[0, 0, 0, 0], 0⟩ [⟨0, 0, 0, [0, 0, 0, 0]⟩] 0 1 (some 100)
        = .ok ⟨⟨1, 100, 0, 2, [0, 0, 0, 0]⟩, [(0, 0), (1, 0)], [[], [], [], []],
            [(0, 0, [0, 0, 0, 0]), (100, 0, [0, 0, 0, 0])], 0, [0, 0, 0, 0]⟩ ∧
    (⟨⟨1, 100, 0, 2, [0, 0, 0, 0]⟩, [(0, 0), (1, 0)], [[], [], [], []],
        [(0, 0, [0, 0, 0, 0])], 0, [0, 0, 0, 0]⟩ : LegacyResult).descriptor
      = (⟨⟨1, 100, 0, 2, [0, 0, 0, 0]⟩, [(0, 0), (1, 0)], [[], [], [], []],
          [(0, 0, [0, 0, 0, 0]), (100, 0, [0, 0, 0, 0])], 0,
          [0, 0, 0, 0]⟩ : LegacyResult).descriptor := by
  have e₁ : legacyExecuteTable ⟨[0, 0, 0, 0], 0⟩ [⟨0, 0, 0, [0, 0, 0, 0]⟩] 0 1 none
      = .ok ⟨⟨1, 100, 0, 2, [0, 0, 0, 0]⟩, [(0, 0), (1, 0)], [[], [], [], []],
          [(0, 0, [0, 0, 0, 0])], 0, [0, 0, 0, 0]⟩ := by
    norm_num [legacyExecuteTable, legacyCompileProfile, pySlice, rowStep,
      legacyInit, chanStep, flagCond, tickOf, pyInt, tickrate, pyGeOpt,
      repActions, rebaseRow, maxticksOf, chanTicks, pyMax, newBaseline,
      lastSliceTail, U32]
  have e₂ : legacyExecuteTable ⟨[0, 0, 0, 0], 0⟩ [⟨0, 0, 0, [0, 0, 0, 0]⟩] 0 1
        (some 100)
      = .ok ⟨⟨1, 100, 0, 2, [0, 0, 0, 0]⟩, [(0, 0), (1, 0)], [[], [], [], []],
          [(0, 0, [0, 0, 0, 0]), (100, 0, [0, 0, 0, 0])], 0, [0, 0, 0, 0]⟩ := by
    norm_num [legacyExecuteTable, legacyCompileProfile, pySlice, rowStep,
      legacyInit, chanStep, flagCond, tickOf, pyInt, tickrate, pyGeOpt,
      repActions, rebaseRow, maxticksOf, chanTicks, pyMax, newBaseline,
      lastSliceTail, U32]
  exact ⟨e₁, e₂,
    (c10_profileIndependentOfRepDuration _ _ 0 1 none (some 100) _ _ e₁ e₂).1⟩

/-- C8 (amended): with `stopIndex ≤ startIndex`, the legacy path always
raises an `IndexError` (not a dedicated `EmptySelection` error) before any
connection command, and so does the generic path whenever a repeat duration
is provided; but the generic path without a repeat duration raises nothing
and hands `PrepareActions` an empty action list. -/
theorem c8_emptySelectionAmended :
    (∀ (st : LegacyState) (table : List ActionRow) (start stop : ℕ)
        (rd : Option ℚ), stop ≤ start →
          legacyExecuteTable st table start stop rd = .error .indexError) ∧
    (∀ (table : List ActionRow) (start stop : ℕ) (r : ℚ), stop ≤ start →
          genericActions table start stop (some r) = .error .indexError) ∧
    (∀ (table : List ActionRow) (start stop : ℕ), stop ≤ start →
        start < table.length → genericActions table start stop none = .ok []) := by
  have hsl : ∀ (table : List ActionRow) (start stop : ℕ), stop ≤ start →
      pySlice table start stop = ([] : List ActionRow) := by
    intro table start stop h
    simp [pySlice, Nat.sub_eq_zero_of_le h]
  refine ⟨?_, ?_, ?_⟩
  · intro st table start stop rd h
    cases hts : table[start]? with
    | none => simp [legacyExecuteTable, legacyCompileProfile, hts]
    | some r0 =>
      simp [legacyExecuteTable, legacyCompileProfile, hts,
        hsl table start stop h, legacyInit]
  · intro table start stop r h
    cases hts : table[start]? with
    | none => simp [genericActions, hts]
    | some r0 => simp [genericActions, hts, hsl table start stop h, repActions]
  · intro table start stop h hlt
    obtain ⟨r0, hr0⟩ : ∃ r0, table[start]? = some r0 :=
      ⟨_, List.getElem?_eq_getElem hlt⟩
    simp [genericActions, hr0, hsl table start stop h, repActions]

/-- C8 amended witness: the three branches at concrete empty selections. -/
theorem c8_emptySelectionAmended_witness :
    legacyExecuteTable ⟨[0, 0, 0, 0], 0⟩ [⟨0, 0, 0, [0, 0, 0, 0]⟩] 1 1 none
        = .error .indexError ∧
    genericActions [⟨0, 0, 0, [0, 0, 0, 0]⟩] 1 0 (some 5) = .error .indexError ∧
    genericActions [⟨2, 0, 3, [0, 0, 0, 0]⟩] 0 0 none = .ok [] :=
  ⟨c8_emptySelectionAmended.1 _ _ _ _ none (le_refl 1),
   c8_emptySelectionAmended.2.1 _ _ _ 5 (Nat.zero_le 1),
   c8_emptySelectionAmended.2.2 _ 0 0 (le_refl 0) (by norm_num)⟩

/-- C8 counterexample: an empty selection does not always fail before the
connection is touched.  With `startIndex = stopIndex = 0` on a one-row table
and no `repDuration`, the generic path raises no error (the result is `.ok`,
not `.error`) and hands `PrepareActions` the empty action list. -/
theorem c8_genericEmptySelectionNoError :
    genericActions [⟨0, 0, 0, [0, 0, 0, 0]⟩] 0 0 none = .ok [] := by
  simp [genericActions, pySlice, repActions, rebaseRow]

end Executor
